import Mathlib

/-!
Verification of the UltraNest sine-line example notebook
(`docs/example-sine-line.ipynb`) and of the Reactive Nested Sampler
specification it exercises.

The notebook-level model (`sine_model`, `prior_transform`,
`log_likelihood`, `wrapped_params`) is embedded directly from the
notebook source over the reals.  The sampler engine itself is not part
of the repository sources, so the state machine, configuration checks
and results summarizer are modelled from the specification text and are
marked as such in their doc comments.
-/

namespace UltraNest

open Real Finset

/-! ## Notebook model (embedded from `docs/example-sine-line.ipynb`) -/

/-- `sine_model(t, B, A, P, t0) = A * sin((t / P + t0) * 2 * pi) + B`
(notebook cell defining the sine model). -/
noncomputable def sine_model (t B A P t0 : ℝ) : ℝ :=
  A * Real.sin ((t / P + t0) * 2 * Real.pi) + B

/-- The measurement error `yerr = 1.0` fixed by the notebook's
data-generation cell. -/
def yerr : ℝ := 1.0

/-- `prior_transform(cube)`: the notebook's prior transform, mapping the
unit hypercube `[0,1]^4` to physical coordinates
`(B, A, P, t0) = (cube[0]*20 - 10, 10**(cube[1]*4 - 2), 10**(cube[2]*2), cube[3])`. -/
noncomputable def prior_transform (cube : Fin 4 → ℝ) : Fin 4 → ℝ :=
  ![cube 0 * 20 - 10,
    (10 : ℝ) ^ (cube 1 * 4 - 2),
    (10 : ℝ) ^ (cube 2 * 2),
    cube 3]

/-- The notebook's `log_likelihood`: with `B, A, P, t0 = params` and data
arrays `t`, `y` of length `n_data = 20`, it returns
`-0.5 * (((y_model - y) / yerr)**2).sum()` where
`y_model = sine_model(t, A=A, B=B, P=P, t0=t0)` elementwise. -/
noncomputable def log_likelihood (t y : Fin 20 → ℝ) (params : Fin 4 → ℝ) : ℝ :=
  -0.5 * ∑ i, ((sine_model (t i) (params 0) (params 1) (params 2) (params 3) - y i) / yerr) ^ 2

/-- `wrapped_params=[False, False, False, True]` passed to
`ReactiveNestedSampler` in the notebook. -/
def wrapped_params : Fin 4 → Bool :=
  ![false, false, false, true]

/-- Membership of a point in the unit hypercube `[0,1]^4`. -/
def inUnitCube (cube : Fin 4 → ℝ) : Prop :=
  ∀ i, 0 ≤ cube i ∧ cube i ≤ 1

/-- The imperative body of `prior_transform`, step by step: the notebook
first takes `params = cube.copy()`, then assigns `params[0]`, `params[1]`,
`params[2]`, `params[3]` in turn, never writing to `cube`.  The result pairs
the (unchanged) input array with the final contents of `params`. -/
noncomputable def prior_transform_steps (cube : Fin 4 → ℝ) : (Fin 4 → ℝ) × (Fin 4 → ℝ) :=
  let params0 := cube
  let params1 := Function.update params0 0 (cube 0 * 20 - 10)
  let params2 := Function.update params1 1 ((10 : ℝ) ^ (cube 1 * 4 - 2))
  let params3 := Function.update params2 2 ((10 : ℝ) ^ (cube 2 * 2))
  let params4 := Function.update params3 3 (cube 3)
  (cube, params4)

/-! ## Sampler engine, modelled from the specification

The Reactive Nested Sampler engine (`ReactiveNestedSampler`, its run
configuration, state machine and results summarizer) is not part of the
repository sources — the notebook only calls it.  The definitions below are
therefore modelled from the specification text (§3–§4.5, §6–§7). -/

/-- Modelled from the spec: the run configuration of §6 for the missing
engine, `{min_num_live_points, dKL/dlogZ tolerance, min_ess}` together with
the problem dimensionality `D`.  The tolerance is an extended real so that
the permitted `+infinity` and the forbidden other non-finite value are
representable. -/
structure RunConfig where
  num_params : ℕ
  min_num_live_points : ℕ
  dlogZ : EReal
  min_ess : ℕ

/-- Modelled from the spec: §7's startup validation for the missing engine.
A configuration raises `ConfigurationError` iff `min_num_live_points < D+1`
or the tolerance is a non-finite value other than the permitted
`+infinity`; otherwise it is accepted and the run begins. -/
def configAccepted (cfg : RunConfig) : Prop :=
  cfg.num_params + 1 ≤ cfg.min_num_live_points ∧ cfg.dlogZ ≠ ⊥

/-- Modelled from the spec: §4.4's CONVERGED stopping rule for the missing
engine — terminate when the estimated remaining evidence (log units) falls
below the tolerance, the effective sample size exceeds `min_ess`, and the
live-point floor has been respected throughout. -/
def converged (cfg : RunConfig) (remaining : ℝ) (ess : ℕ) (floorOK : Bool) : Prop :=
  (remaining : EReal) < cfg.dlogZ ∧ cfg.min_ess ≤ ess ∧ floorOK = true

/-- The configuration used by the notebook's
`sampler.run(min_num_live_points=400, dKL=np.inf, min_ess=100)` call, with
`D = 4` parameters. -/
def notebookConfig : RunConfig :=
  { num_params := 4, min_num_live_points := 400, dlogZ := ⊤, min_ess := 100 }

/-- Modelled from the spec: §3's DeadPoint for the missing engine — a
removed live point tagged with its log-likelihood, the log prior-volume
estimate at removal time, and its stratum (the live-set size active at
removal). -/
structure DeadRecord where
  logl : ℝ
  logvol : ℝ
  stratum : ℕ

/-- Modelled from the spec: §3's Run State for the missing engine, reduced
to the fields the claims mention.  Live points are represented by their
log-likelihoods; `threshold` is `L*`, absent before the first removal. -/
structure RunState where
  dead : List DeadRecord
  live : List ℝ
  log_volume_estimate : ℝ
  threshold : Option ℝ

/-- Modelled from the spec: §4.4's transitions of the missing engine's
state machine.  A SAMPLING step removes a worst live point (a minimum of
the live log-likelihoods), records it as a dead point tagged with the
current log-volume and the live-set size active at that step, shrinks
`log_volume_estimate` by `1/N_live` (the expected geometric shrinkage with
that live-set size), sets the threshold to the removed likelihood and
inserts a replacement drawn above it.  A REACTIVE_EXPAND step inserts an
additional live point above the current threshold without removing any. -/
inductive SamplerStep : RunState → RunState → Prop
  | sampling (s : RunState) (worst : ℝ) (rest : List ℝ) (replacement : ℝ)
      (hperm : List.Perm s.live (worst :: rest))
      (hworst : ∀ l ∈ s.live, worst ≤ l)
      (hrepl : worst < replacement) :
      SamplerStep s
        { dead := ⟨worst, s.log_volume_estimate, s.live.length⟩ :: s.dead,
          live := replacement :: rest,
          log_volume_estimate := s.log_volume_estimate - 1 / s.live.length,
          threshold := some worst }
  | expand (s : RunState) (new : ℝ)
      (hnew : ∀ L, s.threshold = some L → L < new) :
      SamplerStep s { s with live := new :: s.live }

/-- The C7 invariant: every live point's log-likelihood is at least the
current threshold `L*`, whenever a threshold exists. -/
def liveRespectsThreshold (s : RunState) : Prop :=
  ∀ L, s.threshold = some L → ∀ l ∈ s.live, L ≤ l

/-- Modelled from the spec: §4.5's posterior sample record for the missing
Results Summarizer — each dead or final live point carries its estimated
log prior-volume share and its log-likelihood. -/
structure PosteriorSample where
  logvol : ℝ
  logl : ℝ

/-- Modelled from the spec: §4.5's log-evidence accumulated by the missing
engine as the weighted evidence sum `Z = sum_i exp(logvol_i + logl_i)` over
all posterior samples. -/
noncomputable def log_evidence (samples : List PosteriorSample) : ℝ :=
  Real.log (samples.map (fun p => Real.exp (p.logvol + p.logl))).sum

/-- Modelled from the spec: §4.5's importance weight
`w_i = exp(log_volume_i + log_likelihood_i - log_evidence)` of the missing
Results Summarizer. -/
noncomputable def posteriorWeight (samples : List PosteriorSample) (p : PosteriorSample) : ℝ :=
  Real.exp (p.logvol + p.logl - log_evidence samples)

/-- Modelled from the spec: §5's seeded pseudo-random stream of the missing
engine, advanced once per proposal draw (worker concurrency fixed at 1, so
draws happen in a fixed sequential order). -/
def nextRng (r : ℕ) : ℕ :=
  (1103515245 * r + 12345) % 2147483648

/-- Modelled from the spec: §4.3's capped rejection sampling of the missing
Region/Proposal Engine — draw from the seeded stream, accept the first
candidate strictly above the threshold, give up (`ProposalStuck`) after the
attempt cap.  Values are exact rationals, standing for the bitwise-exact
floating-point values of the spec's determinism property. -/
def firstAccepted (propose : ℕ → ℚ) (thr : ℚ) : ℕ → ℕ → Option (ℚ × ℕ)
  | 0, _ => none
  | k + 1, r =>
    if thr < propose r then some (propose r, nextRng r)
    else firstAccepted propose thr k (nextRng r)

/-- Modelled from the spec: the seeded sampler state with worker
concurrency 1 — live and dead log-likelihood values (exact rationals), the
rng state and the iteration counter. -/
structure SeededState where
  live : List ℚ
  dead : List ℚ
  rng : ℕ
  iter : ℕ
deriving DecidableEq

/-- Modelled from the spec: one iteration of the missing engine's loop at
concurrency 1 — pop a worst live point, record it dead, replace it by the
first accepted seeded proposal; `none` when the live set is exhausted or
the proposal engine is stuck after the attempt cap. -/
def seededStep (propose : ℕ → ℚ) (cap : ℕ) (s : SeededState) : Option SeededState :=
  match s.live with
  | [] => none
  | x :: xs =>
    let worst := xs.foldl min x
    match firstAccepted propose worst cap s.rng with
    | none => none
    | some (c, r') =>
        some { live := c :: (x :: xs).erase worst,
               dead := worst :: s.dead,
               rng := r',
               iter := s.iter + 1 }

/-- Modelled from the spec: complete runs of the seeded engine as a
relation — `SeededRun propose cap s l` holds when the run started at `s`
halts with final dead-point sequence `l`. -/
inductive SeededRun (propose : ℕ → ℚ) (cap : ℕ) : SeededState → List ℚ → Prop
  | halt (s : SeededState) (h : seededStep propose cap s = none) :
      SeededRun propose cap s s.dead
  | step (s s' : SeededState) (l : List ℚ)
      (h : seededStep propose cap s = some s')
      (ht : SeededRun propose cap s' l) : SeededRun propose cap s l

/-- Modelled from the spec: the initial seeded state — the initial live
population, no dead points, rng seeded, iteration 0. -/
def initState (seed : ℕ) (live0 : List ℚ) : SeededState :=
  ⟨live0, [], seed, 0⟩

/-! ### Basic facts about the prior transform components -/

lemma prior_transform_apply_zero (cube : Fin 4 → ℝ) :
    prior_transform cube 0 = cube 0 * 20 - 10 := rfl

lemma prior_transform_apply_one (cube : Fin 4 → ℝ) :
    prior_transform cube 1 = (10 : ℝ) ^ (cube 1 * 4 - 2) := rfl

lemma prior_transform_apply_two (cube : Fin 4 → ℝ) :
    prior_transform cube 2 = (10 : ℝ) ^ (cube 2 * 2) := rfl

lemma prior_transform_apply_three (cube : Fin 4 → ℝ) :
    prior_transform cube 3 = cube 3 := rfl

lemma rpow_ten_pos (e : ℝ) : 0 < (10 : ℝ) ^ e :=
  Real.rpow_pos_of_pos (by norm_num) e

lemma rpow_ten_mono {a b : ℝ} (h : a ≤ b) : (10 : ℝ) ^ a ≤ (10 : ℝ) ^ b :=
  Real.rpow_le_rpow_of_exponent_le (by norm_num) h

lemma rpow_ten_two : (10 : ℝ) ^ (2 : ℝ) = 100 := by
  rw [show (2 : ℝ) = ((2 : ℕ) : ℝ) by norm_num, Real.rpow_natCast]
  norm_num

lemma rpow_ten_neg_two : (10 : ℝ) ^ (-2 : ℝ) = 1 / 100 := by
  rw [show (-2 : ℝ) = -((2 : ℕ) : ℝ) by norm_num, Real.rpow_neg (by norm_num),
    Real.rpow_natCast]
  norm_num

lemma prior_transform_bound_zero (cube : Fin 4 → ℝ) (h : inUnitCube cube) :
    -10 ≤ prior_transform cube 0 ∧ prior_transform cube 0 ≤ 10 := by
  obtain ⟨h0l, h0u⟩ := h 0
  rw [prior_transform_apply_zero]
  constructor <;> linarith

lemma prior_transform_bound_one (cube : Fin 4 → ℝ) (h : inUnitCube cube) :
    1 / 100 ≤ prior_transform cube 1 ∧ prior_transform cube 1 ≤ 100 := by
  obtain ⟨h1l, h1u⟩ := h 1
  rw [prior_transform_apply_one]
  constructor
  · rw [← rpow_ten_neg_two]; exact rpow_ten_mono (by linarith)
  · rw [← rpow_ten_two]; exact rpow_ten_mono (by linarith)

lemma prior_transform_bound_two (cube : Fin 4 → ℝ) (h : inUnitCube cube) :
    1 ≤ prior_transform cube 2 ∧ prior_transform cube 2 ≤ 100 := by
  obtain ⟨h2l, h2u⟩ := h 2
  rw [prior_transform_apply_two]
  constructor
  · rw [← Real.rpow_zero 10]; exact rpow_ten_mono (by linarith)
  · rw [← rpow_ten_two]; exact rpow_ten_mono (by linarith)

/-- The sine model output is bounded by `|A| + |B|` for any arguments. -/
lemma sine_model_abs_le (t B A P t0 : ℝ) :
    |sine_model t B A P t0| ≤ |A| + |B| := by
  unfold sine_model
  calc |A * Real.sin ((t / P + t0) * 2 * Real.pi) + B|
      ≤ |A * Real.sin ((t / P + t0) * 2 * Real.pi)| + |B| := abs_add _ _
    _ = |A| * |Real.sin ((t / P + t0) * 2 * Real.pi)| + |B| := by rw [abs_mul]
    _ ≤ |A| * 1 + |B| := by
        have := abs_le.mpr ⟨Real.neg_one_le_sin ((t / P + t0) * 2 * Real.pi),
          Real.sin_le_one ((t / P + t0) * 2 * Real.pi)⟩
        gcongr
    _ = |A| + |B| := by ring

/-! ## Theorems about the notebook model -/

/-- **C2.** `prior_transform` is total, pure and deterministic on `[0,1]^4`:
on every cube in the unit hypercube it returns the 4-vector
`(cube[0]*20-10, 10**(cube[1]*4-2), 10**(cube[2]*2), cube[3])`, each
component a finite real bounded inside a fixed interval, and two calls on
the same input return the same output. -/
theorem prior_transform_total_pure (cube : Fin 4 → ℝ) (h : inUnitCube cube) :
    prior_transform cube 0 = cube 0 * 20 - 10 ∧
    prior_transform cube 1 = (10 : ℝ) ^ (cube 1 * 4 - 2) ∧
    prior_transform cube 2 = (10 : ℝ) ^ (cube 2 * 2) ∧
    prior_transform cube 3 = cube 3 ∧
    (-10 ≤ prior_transform cube 0 ∧ prior_transform cube 0 ≤ 10) ∧
    (1 / 100 ≤ prior_transform cube 1 ∧ prior_transform cube 1 ≤ 100) ∧
    (1 ≤ prior_transform cube 2 ∧ prior_transform cube 2 ≤ 100) ∧
    (0 ≤ prior_transform cube 3 ∧ prior_transform cube 3 ≤ 1) ∧
    (∀ cube' : Fin 4 → ℝ, cube = cube' → prior_transform cube = prior_transform cube') := by
  obtain ⟨h3l, h3u⟩ := h 3
  exact ⟨rfl, rfl, rfl, rfl, prior_transform_bound_zero cube h,
    prior_transform_bound_one cube h, prior_transform_bound_two cube h,
    ⟨h3l, h3u⟩, fun cube' hc => by rw [hc]⟩

/-- Witness for C2 at the concrete cube `(1/2, 1/2, 1/2, 1/2)`. -/
theorem prior_transform_total_pure_witness :
    inUnitCube (fun _ => (1 / 2 : ℝ)) ∧
    (prior_transform (fun _ => (1 / 2 : ℝ)) 0 = (1 / 2 : ℝ) * 20 - 10 ∧
     prior_transform (fun _ => (1 / 2 : ℝ)) 1 = (10 : ℝ) ^ ((1 / 2 : ℝ) * 4 - 2) ∧
     prior_transform (fun _ => (1 / 2 : ℝ)) 2 = (10 : ℝ) ^ ((1 / 2 : ℝ) * 2) ∧
     prior_transform (fun _ => (1 / 2 : ℝ)) 3 = (1 / 2 : ℝ) ∧
     (-10 ≤ prior_transform (fun _ => (1 / 2 : ℝ)) 0 ∧
      prior_transform (fun _ => (1 / 2 : ℝ)) 0 ≤ 10) ∧
     (1 / 100 ≤ prior_transform (fun _ => (1 / 2 : ℝ)) 1 ∧
      prior_transform (fun _ => (1 / 2 : ℝ)) 1 ≤ 100) ∧
     (1 ≤ prior_transform (fun _ => (1 / 2 : ℝ)) 2 ∧
      prior_transform (fun _ => (1 / 2 : ℝ)) 2 ≤ 100) ∧
     (0 ≤ prior_transform (fun _ => (1 / 2 : ℝ)) 3 ∧
      prior_transform (fun _ => (1 / 2 : ℝ)) 3 ≤ 1) ∧
     (∀ cube' : Fin 4 → ℝ, (fun _ => (1 / 2 : ℝ)) = cube' →
        prior_transform (fun _ => (1 / 2 : ℝ)) = prior_transform cube')) := by
  have h : inUnitCube (fun _ => (1 / 2 : ℝ)) := by intro i; constructor <;> norm_num
  exact ⟨h, prior_transform_total_pure (fun _ => (1 / 2 : ℝ)) h⟩

/-- **C9.** `prior_transform` does not mutate its argument: executing its
body step by step (copy, then four element assignments, all to the copy)
leaves the input array unchanged and produces exactly the value of
`prior_transform`. -/
theorem prior_transform_no_mutation (cube : Fin 4 → ℝ) :
    (prior_transform_steps cube).1 = cube ∧
    (prior_transform_steps cube).2 = prior_transform cube := by
  refine ⟨rfl, ?_⟩
  funext i
  fin_cases i <;>
    simp [prior_transform_steps, prior_transform, Function.update]

/-- **C10.** For every cube in `[0,1]^4` the period component of
`prior_transform(cube)` equals `10**(cube[2]*2)`, hence lies in `[1, 100]`
and is strictly positive; the adjacent comment's claimed range 0.3 to 30 is
wrong, since at `cube[2] = 1` the period is `100 > 30`, and no period below
1 (in particular none in `[0.3, 1)`) is ever produced. -/
theorem period_component_range (cube : Fin 4 → ℝ) (h : inUnitCube cube) :
    prior_transform cube 2 = (10 : ℝ) ^ (cube 2 * 2) ∧
    1 ≤ prior_transform cube 2 ∧
    prior_transform cube 2 ≤ 100 ∧
    0 < prior_transform cube 2 ∧
    prior_transform ![0, 0, 1, 0] 2 = 100 ∧
    ¬ ((0.3 : ℝ) ≤ prior_transform ![0, 0, 1, 0] 2 ∧
       prior_transform ![0, 0, 1, 0] 2 ≤ 30) := by
  have hval : prior_transform ![(0 : ℝ), 0, 1, 0] 2 = 100 := by
    rw [prior_transform_apply_two]
    norm_num [rpow_ten_two]
  refine ⟨rfl, (prior_transform_bound_two cube h).1,
    (prior_transform_bound_two cube h).2, ?_, hval, ?_⟩
  · rw [prior_transform_apply_two]; exact rpow_ten_pos _
  · rw [hval]; intro hcon; linarith [hcon.2]

/-- **C1.** For every unit-cube input `cube` in `[0,1]^4`, the composed
pipeline `log_likelihood(prior_transform(cube))` is a finite real: the
period component is strictly positive, and the log-likelihood is bounded
below by the finite constant `-0.5 * sum_i (110 + |y_i|)^2` and above by
`0` — so the `-inf` infeasibility branch is unreachable for this model. -/
theorem pipeline_loglike_finite (t y : Fin 20 → ℝ) (cube : Fin 4 → ℝ)
    (h : inUnitCube cube) :
    0 < prior_transform cube 2 ∧
    -0.5 * (∑ i, (110 + |y i|) ^ 2) ≤ log_likelihood t y (prior_transform cube) ∧
    log_likelihood t y (prior_transform cube) ≤ 0 := by
  have hB := prior_transform_bound_zero cube h
  have hA := prior_transform_bound_one cube h
  have hyerr : yerr = 1 := by norm_num [yerr]
  set p := prior_transform cube with hp
  have hterm : ∀ i : Fin 20,
      ((sine_model (t i) (p 0) (p 1) (p 2) (p 3) - y i) / yerr) ^ 2
        ≤ (110 + |y i|) ^ 2 := by
    intro i
    rw [hyerr, div_one]
    have hm : |sine_model (t i) (p 0) (p 1) (p 2) (p 3)| ≤ 110 := by
      have h1 := sine_model_abs_le (t i) (p 0) (p 1) (p 2) (p 3)
      have hA' : |p 1| ≤ 100 := abs_le.mpr ⟨by linarith [hA.1], hA.2⟩
      have hB' : |p 0| ≤ 10 := abs_le.mpr ⟨hB.1, hB.2⟩
      linarith
    have habs : |sine_model (t i) (p 0) (p 1) (p 2) (p 3) - y i| ≤ 110 + |y i| :=
      calc |sine_model (t i) (p 0) (p 1) (p 2) (p 3) - y i|
          ≤ |sine_model (t i) (p 0) (p 1) (p 2) (p 3)| + |y i| := abs_sub _ _
        _ ≤ 110 + |y i| := by linarith
    obtain ⟨hl, hu⟩ := abs_le.mp habs
    exact sq_le_sq' hl hu
  have hsum : ∑ i, ((sine_model (t i) (p 0) (p 1) (p 2) (p 3) - y i) / yerr) ^ 2
      ≤ ∑ i, (110 + |y i|) ^ 2 := Finset.sum_le_sum fun i _ => hterm i
  have hnn : (0 : ℝ) ≤ ∑ i, ((sine_model (t i) (p 0) (p 1) (p 2) (p 3) - y i) / yerr) ^ 2 :=
    Finset.sum_nonneg fun i _ => sq_nonneg _
  refine ⟨?_, ?_, ?_⟩
  · rw [hp, prior_transform_apply_two]; exact rpow_ten_pos _
  · unfold log_likelihood
    linarith
  · unfold log_likelihood
    linarith

/-- Witness for C1 at the concrete data `t = y = 0` and cube
`(1/2, 1/2, 1/2, 1/2)`. -/
theorem pipeline_loglike_finite_witness :
    inUnitCube (fun _ => (1 / 2 : ℝ)) ∧
    (0 < prior_transform (fun _ => (1 / 2 : ℝ)) 2 ∧
     -0.5 * (∑ i : Fin 20, (110 + |(0 : ℝ)|) ^ 2)
        ≤ log_likelihood (fun _ => 0) (fun _ => 0)
            (prior_transform (fun _ => (1 / 2 : ℝ))) ∧
     log_likelihood (fun _ => 0) (fun _ => 0)
        (prior_transform (fun _ => (1 / 2 : ℝ))) ≤ 0) := by
  have h : inUnitCube (fun _ => (1 / 2 : ℝ)) := by intro i; constructor <;> norm_num
  exact ⟨h, pipeline_loglike_finite (fun _ => 0) (fun _ => 0) (fun _ => (1 / 2 : ℝ)) h⟩

/-- **C3.** `sine_model` is 1-periodic in its `t0` argument (for any nonzero
period `P`), and `t0` is the only parameter it is 1-periodic in: shifting
`B`, `A` or `P` by 1 changes the value at some input.  This matches the
notebook's `wrapped_params=[False, False, False, True]`, which wraps exactly
the fourth parameter. -/
theorem sine_model_periodic_in_t0_only :
    (∀ t B A P t0 : ℝ, P ≠ 0 → sine_model t B A P (t0 + 1) = sine_model t B A P t0) ∧
    (∃ t B A P t0 : ℝ, P ≠ 0 ∧ sine_model t (B + 1) A P t0 ≠ sine_model t B A P t0) ∧
    (∃ t B A P t0 : ℝ, P ≠ 0 ∧ sine_model t B (A + 1) P t0 ≠ sine_model t B A P t0) ∧
    (∃ t B A P t0 : ℝ, P ≠ 0 ∧ sine_model t B A (P + 1) t0 ≠ sine_model t B A P t0) ∧
    wrapped_params = ![false, false, false, true] := by
  refine ⟨?_, ?_, ?_, ?_, rfl⟩
  · intro t B A P t0 _
    unfold sine_model
    have h : (t / P + (t0 + 1)) * 2 * Real.pi
        = (t / P + t0) * 2 * Real.pi + 2 * Real.pi := by ring
    rw [h, Real.sin_add_two_pi]
  · refine ⟨0, 0, 0, 1, 0, one_ne_zero, ?_⟩
    unfold sine_model
    norm_num
  · refine ⟨0, 0, 0, 1, 1 / 4, one_ne_zero, ?_⟩
    unfold sine_model
    have h : ((0 : ℝ) / 1 + 1 / 4) * 2 * Real.pi = Real.pi / 2 := by ring
    rw [h, Real.sin_pi_div_two]
    norm_num
  · refine ⟨1, 0, 1, 1, 1 / 4, one_ne_zero, ?_⟩
    unfold sine_model
    have h1 : ((1 : ℝ) / (1 + 1) + 1 / 4) * 2 * Real.pi
        = Real.pi + Real.pi / 2 := by ring
    have h2 : ((1 : ℝ) / 1 + 1 / 4) * 2 * Real.pi
        = Real.pi / 2 + 2 * Real.pi := by ring
    rw [h1, h2, Real.sin_add_two_pi, Real.sin_pi_div_two,
      show Real.pi + Real.pi / 2 = Real.pi / 2 + Real.pi by ring,
      Real.sin_add_pi, Real.sin_pi_div_two]
    norm_num

/-- Witness for C3: the inner periodicity statement applied at the concrete
input `t = 1, B = 0, A = 1, P = 2, t0 = 0`, with `P ≠ 0` discharged there. -/
theorem sine_model_periodic_in_t0_only_witness :
    (2 : ℝ) ≠ 0 ∧ sine_model 1 0 1 2 (0 + 1) = sine_model 1 0 1 2 0 :=
  ⟨by norm_num, sine_model_periodic_in_t0_only.1 1 0 1 2 0 (by norm_num)⟩

/-- Witness for C10 at the concrete cube `(0, 0, 1, 0)`. -/
theorem period_component_range_witness :
    inUnitCube ![0, 0, 1, 0] ∧
    (prior_transform ![(0 : ℝ), 0, 1, 0] 2 = (10 : ℝ) ^ ((![(0 : ℝ), 0, 1, 0]) 2 * 2) ∧
     1 ≤ prior_transform ![(0 : ℝ), 0, 1, 0] 2 ∧
     prior_transform ![(0 : ℝ), 0, 1, 0] 2 ≤ 100 ∧
     0 < prior_transform ![(0 : ℝ), 0, 1, 0] 2 ∧
     prior_transform ![0, 0, 1, 0] 2 = 100 ∧
     ¬ ((0.3 : ℝ) ≤ prior_transform ![0, 0, 1, 0] 2 ∧
        prior_transform ![0, 0, 1, 0] 2 ≤ 30)) := by
  have h : inUnitCube ![0, 0, 1, 0] := by
    intro i; fin_cases i <;> constructor <;> norm_num
  exact ⟨h, period_component_range ![0, 0, 1, 0] h⟩

/-! ## Theorems about the spec-modelled engine -/

/-- **C4.** The notebook's run configuration
(`min_num_live_points=400, dKL=np.inf, min_ess=100`) passes the startup
validation (`400 ≥ D+1 = 5`, and `+infinity` is the one permitted
non-finite tolerance), and under it the evidence-tolerance criterion is
disabled: with the live-point floor respected, the CONVERGED stopping rule
holds exactly when the effective sample size reaches `min_ess = 100`,
whatever the remaining-evidence estimate is. -/
theorem notebook_config_accepted :
    configAccepted notebookConfig ∧
    ∀ (remaining : ℝ) (ess : ℕ),
      converged notebookConfig remaining ess true ↔ 100 ≤ ess := by
  refine ⟨⟨by norm_num [notebookConfig], ?_⟩, ?_⟩
  · simp [notebookConfig]
  · intro remaining ess
    simp [converged, notebookConfig, EReal.coe_lt_top]

/-- Witness for C4: the stopping rule instantiated at remaining-evidence
estimate `0` and effective sample size `100`. -/
theorem notebook_config_accepted_witness :
    converged notebookConfig 0 100 true ↔ 100 ≤ 100 :=
  notebook_config_accepted.2 0 100

/-- **C5.** Every transition of the sampler that records a dead point (a
SAMPLING step) strictly decreases `log_volume_estimate`: the new estimate
is the old one minus `1/N_live` with `N_live` the live-set size active at
that step, so the enclosed prior volume is multiplied by the shrinkage
factor `exp(-1/N_live) < 1`. -/
theorem log_volume_strict_decrease (s s' : RunState)
    (hstep : SamplerStep s s') (hdead : s.dead.length < s'.dead.length) :
    s'.log_volume_estimate = s.log_volume_estimate - 1 / s.live.length ∧
    s'.log_volume_estimate < s.log_volume_estimate ∧
    Real.exp (s'.log_volume_estimate - s.log_volume_estimate) < 1 := by
  cases hstep with
  | sampling worst rest replacement hperm hworst hrepl =>
    have hlen : s.live.length = rest.length + 1 := by
      rw [hperm.length_eq]; rfl
    have hfrac : (0 : ℝ) < 1 / (s.live.length : ℝ) := by
      rw [hlen]; positivity
    refine ⟨rfl, ?_, ?_⟩
    · show s.log_volume_estimate - 1 / (s.live.length : ℝ) < s.log_volume_estimate
      linarith
    · show Real.exp (s.log_volume_estimate - 1 / (s.live.length : ℝ)
          - s.log_volume_estimate) < 1
      rw [Real.exp_lt_one_iff]
      linarith
  | expand new hnew =>
    exact absurd hdead (lt_irrefl _)

/-- Witness for C5: a concrete SAMPLING step from live set `{0}` removing
the worst point `0` and inserting the replacement `1`. -/
theorem log_volume_strict_decrease_witness :
    ([] : List DeadRecord).length < [(⟨0, 0, 1⟩ : DeadRecord)].length ∧
    ((0 : ℝ) - 1 / ((1 : ℕ) : ℝ) = 0 - 1 / ((1 : ℕ) : ℝ) ∧
     (0 : ℝ) - 1 / ((1 : ℕ) : ℝ) < 0 ∧
     Real.exp ((0 : ℝ) - 1 / ((1 : ℕ) : ℝ) - 0) < 1) := by
  have hstep : SamplerStep ⟨[], [0], 0, none⟩
      ⟨[⟨0, 0, 1⟩], [1], 0 - 1 / ((1 : ℕ) : ℝ), some 0⟩ := by
    exact SamplerStep.sampling ⟨[], [0], 0, none⟩ 0 [] 1
      (List.Perm.refl _)
      (by
        show ∀ l ∈ [(0 : ℝ)], (0 : ℝ) ≤ l
        intro l hl
        rw [List.mem_singleton] at hl
        exact le_of_eq hl.symm)
      (by norm_num)
  have hdead : (⟨[], [0], 0, none⟩ : RunState).dead.length <
      (⟨[⟨0, 0, 1⟩], [1], 0 - 1 / ((1 : ℕ) : ℝ), some 0⟩ : RunState).dead.length := by
    show (0 : ℕ) < 1
    norm_num
  exact ⟨hdead, log_volume_strict_decrease _ _ hstep hdead⟩

/-- One step of the sampler preserves the C7 invariant. -/
lemma liveRespectsThreshold_step (s s' : RunState) (hstep : SamplerStep s s')
    (hinv : liveRespectsThreshold s) : liveRespectsThreshold s' := by
  cases hstep with
  | sampling worst rest replacement hperm hworst hrepl =>
    intro L hL l hl
    have hLw : worst = L := Option.some_inj.mp hL
    rcases List.mem_cons.mp hl with h1 | h2
    · rw [h1, ← hLw]
      exact le_of_lt hrepl
    · rw [← hLw]
      exact hworst l (hperm.mem_iff.mpr (List.mem_cons_of_mem _ h2))
  | expand new hnew =>
    intro L hL l hl
    rcases List.mem_cons.mp hl with h1 | h2
    · rw [h1]
      exact le_of_lt (hnew L hL)
    · exact hinv L hL l h2

/-- **C7.** In every state reachable from a freshly initialized state
(no threshold yet, as during the very first `N_live` points), every member
of the live-point set has log-likelihood at least the current threshold
`L*` — the log-likelihood of the most recently removed point — whenever a
threshold exists. -/
theorem live_points_respect_threshold (s0 s : RunState)
    (h0 : s0.threshold = none)
    (hreach : Relation.ReflTransGen SamplerStep s0 s) :
    liveRespectsThreshold s := by
  induction hreach with
  | refl =>
    intro L hL l hl
    rw [h0] at hL
    exact Option.noConfusion hL
  | tail hab hbc ih =>
    exact liveRespectsThreshold_step _ _ hbc ih

/-- Witness for C7 at the concrete initial state with one live point and no
threshold. -/
theorem live_points_respect_threshold_witness :
    (⟨[], [0], 0, none⟩ : RunState).threshold = none ∧
    liveRespectsThreshold ⟨[], [0], 0, none⟩ :=
  ⟨rfl, live_points_respect_threshold _ _ rfl Relation.ReflTransGen.refl⟩

/-- Summing a list of pointwise quotients by a fixed denominator. -/
lemma list_sum_map_div (l : List PosteriorSample) (g : PosteriorSample → ℝ) (c : ℝ) :
    (l.map (fun p => g p / c)).sum = (l.map g).sum / c := by
  induction l with
  | nil => simp
  | cons p rest ih => simp [ih, add_div]

/-- **C6.** For every nonempty list of posterior samples (dead points plus
final live points), the importance weights
`w_i = exp(log_volume_i + log_likelihood_i - log_evidence)` produced by the
Results Summarizer sum to exactly 1. -/
theorem posterior_weights_sum_to_one (samples : List PosteriorSample)
    (h : samples ≠ []) :
    (samples.map (posteriorWeight samples)).sum = 1 := by
  set S := (samples.map (fun p => Real.exp (p.logvol + p.logl))).sum with hS
  have hpos : 0 < S := by
    cases samples with
    | nil => exact absurd rfl h
    | cons p rest =>
      rw [hS]
      simp only [List.map_cons, List.sum_cons]
      have h1 : (0 : ℝ) ≤ (rest.map (fun q => Real.exp (q.logvol + q.logl))).sum := by
        apply List.sum_nonneg
        intro x hx
        obtain ⟨q, -, rfl⟩ := List.mem_map.mp hx
        exact (Real.exp_pos _).le
      linarith [Real.exp_pos (p.logvol + p.logl)]
  have hfun : posteriorWeight samples = fun p => Real.exp (p.logvol + p.logl) / S := by
    funext p
    unfold posteriorWeight log_evidence
    rw [Real.exp_sub, ← hS, Real.exp_log hpos]
  rw [hfun, list_sum_map_div, ← hS, div_self (ne_of_gt hpos)]

/-- Witness for C6 at the singleton sample list `[(0, 0)]`. -/
theorem posterior_weights_sum_to_one_witness :
    ([⟨0, 0⟩] : List PosteriorSample) ≠ [] ∧
    (([⟨0, 0⟩] : List PosteriorSample).map (posteriorWeight [⟨0, 0⟩])).sum = 1 :=
  ⟨List.cons_ne_nil _ _, posterior_weights_sum_to_one [⟨0, 0⟩] (List.cons_ne_nil _ _)⟩

/-- Inversion principle for `SeededRun`. -/
lemma seededRun_inv (propose : ℕ → ℚ) (cap : ℕ) (s : SeededState) (l : List ℚ)
    (h : SeededRun propose cap s l) :
    (seededStep propose cap s = none ∧ l = s.dead) ∨
    (∃ s', seededStep propose cap s = some s' ∧ SeededRun propose cap s' l) := by
  cases h with
  | halt t hnone => exact Or.inl ⟨hnone, rfl⟩
  | step t s' l2 hstep ht => exact Or.inr ⟨s', hstep, ht⟩

lemma seededRun_unique (propose : ℕ → ℚ) (cap : ℕ) (s : SeededState)
    (l1 : List ℚ) (h1 : SeededRun propose cap s l1) :
    ∀ l2 : List ℚ, SeededRun propose cap s l2 → l1 = l2 := by
  induction h1 with
  | halt t h =>
    intro l2 h2
    rcases seededRun_inv _ _ _ _ h2 with ⟨-, he⟩ | ⟨s2, hs2, -⟩
    · exact he.symm
    · rw [h] at hs2
      exact Option.noConfusion hs2
  | step t s' l hstep ht ih =>
    intro l2 h2
    rcases seededRun_inv _ _ _ _ h2 with ⟨hnone, -⟩ | ⟨s2, hs2, htr⟩
    · rw [hstep] at hnone
      exact Option.noConfusion hnone
    · rw [hstep] at hs2
      rw [← Option.some_inj.mp hs2] at htr
      exact ih l2 htr

/-- **C8.** With the random stream fixed by the seed and worker concurrency
fixed at 1, any two complete runs with identical configuration (same
proposal function, attempt cap, seed and initial live population) produce
identical dead-point sequences. -/
theorem dead_sequence_deterministic (propose : ℕ → ℚ) (cap seed : ℕ)
    (live0 : List ℚ) (l1 l2 : List ℚ)
    (h1 : SeededRun propose cap (initState seed live0) l1)
    (h2 : SeededRun propose cap (initState seed live0) l2) :
    l1 = l2 :=
  seededRun_unique propose cap (initState seed live0) l1 h1 l2 h2

/-- Witness for C8: a run that halts immediately (the constant-0 proposal
never exceeds the threshold 0 within the attempt cap), taken twice. -/
theorem dead_sequence_deterministic_witness :
    SeededRun (fun _ => (0 : ℚ)) 1 (initState 0 [0]) [] ∧
    ([] : List ℚ) = [] := by
  have h : seededStep (fun _ => (0 : ℚ)) 1 (initState 0 [0]) = none := by decide
  have tr : SeededRun (fun _ => (0 : ℚ)) 1 (initState 0 [0]) [] :=
    SeededRun.halt _ h
  exact ⟨tr, dead_sequence_deterministic _ 1 0 [0] [] [] tr tr⟩

end UltraNest
